import Mathlib

/-!
Verification of the analytics layer of `warehouse_route_optimizer.py`.

The script's analytics stages are embedded shallowly:
* tables are lists of rows; a row carries the (already null-filled) scalar
  values of the columns the stage reads, as strings;
* Python floats are modelled as exact rationals; since Batteries marks
  `Rat.add`, `Rat.mul` and `Rat.inv` `@` `[irreducible]`, kernel-reducible
  clones (`qAdd`, `qMul`, `qDiv`) built on `mkRat` are used in executable
  definitions and proved equal to the field operations of `ℚ`;
* Python `round(x, 3)` is modelled as exact half-to-even rounding of the
  rational to 3 decimal places (`round3`);
* Python string comparison (code-point lexicographic) is modelled by `lexLt`
  on `String.data`;
* Python's stable `sorted` (and pandas `sort_values`, whose tie order the
  spec fixes as stable) is modelled by `List.insertionSort`, which is stable;
* pandas `groupby` enumerates group keys sorted ascending and deduplicated
  (`sortedDedup`), matching Python `sorted(set ·)`.
-/

namespace WRoute

/-! ### Generic helpers: code-point lexicographic order on strings -/

/-- Lexicographic strict comparison of char lists, as Python compares
strings by code point. -/
def lexLt : List Char → List Char → Bool
  | _, [] => false
  | [], _ :: _ => true
  | a :: as, b :: bs => if a < b then true else if b < a then false else lexLt as bs

/-- Python's `<` on strings. -/
def strLt (a b : String) : Bool := lexLt a.data b.data

/-- Insert into a strictly sorted list, dropping duplicates: the effect of
Python's `sorted(set ·)` built incrementally. -/
def insDedup (x : String) : List String → List String
  | [] => [x]
  | y :: ys =>
    if strLt x y then x :: y :: ys
    else if strLt y x then y :: insDedup x ys
    else y :: ys

/-- Python `sorted(set l)`: the distinct members of `l` in ascending
code-point order. -/
def sortedDedup (l : List String) : List String := l.foldr insDedup []

/-- All 2-element combinations in order: `itertools.combinations(l, 2)`. -/
def pairs2 : List String → List (String × String)
  | [] => []
  | x :: xs => xs.map (fun y => (x, y)) ++ pairs2 xs

/-- Keep the first occurrence of each element: the key order of a Python
`dict`/`Counter` filled by iteration. -/
def firstDedup {α : Type} [DecidableEq α] (l : List α) : List α :=
  l.foldl (fun acc x => if x ∈ acc then acc else acc ++ [x]) []

/-- Minimum of a list of naturals, `none` on the empty list. -/
def natMin? : List Nat → Option Nat
  | [] => none
  | x :: xs => some (xs.foldl Nat.min x)

/-! ### Kernel-reducible rational arithmetic -/

/-- Addition on `ℚ`, kernel-reducible clone of `Rat.add`. -/
def qAdd (a b : ℚ) : ℚ := mkRat (a.num * b.den + b.num * a.den) (a.den * b.den)

/-- Multiplication on `ℚ`, kernel-reducible clone of `Rat.mul`. -/
def qMul (a b : ℚ) : ℚ := mkRat (a.num * b.num) (a.den * b.den)

/-- Division on `ℚ`, kernel-reducible clone of `Rat.div`. -/
def qDiv (a b : ℚ) : ℚ := Rat.divInt (a.num * b.den) (a.den * b.num)

theorem qAdd_eq (a b : ℚ) : qAdd a b = a + b := (Rat.add_def' a b).symm

theorem qMul_eq (a b : ℚ) : qMul a b = a * b := by
  rw [qMul, Rat.mul_def, Rat.normalize_eq_mkRat]

theorem qDiv_eq (a b : ℚ) : qDiv a b = a / b := by
  rw [qDiv, Rat.divInt_eq_div]
  by_cases hb : b = 0
  · subst hb; simp
  · have hbn : (b.num : ℚ) ≠ 0 := by
      simpa using (Rat.num_ne_zero).2 hb
    have had : (a.den : ℚ) ≠ 0 := Nat.cast_ne_zero.mpr a.den_nz
    have hbd : (b.den : ℚ) ≠ 0 := Nat.cast_ne_zero.mpr b.den_nz
    have ha' := div_mul_cancel₀ (a.num : ℚ) had
    rw [Rat.num_div_den] at ha'
    have hb' := div_mul_cancel₀ (b.num : ℚ) hbd
    rw [Rat.num_div_den] at hb'
    rw [div_eq_div_iff (by push_cast; exact mul_ne_zero had hbn) hb]
    push_cast
    rw [← ha', ← hb']
    ring

/-- Round `n / d` (with `d > 0`) to the nearest integer, ties to even:
the rounding of Python's `round`. -/
def roundHalfEven (n : ℤ) (d : ℤ) : ℤ :=
  let q := Int.fdiv n d
  let r := n - q * d
  if 2 * r < d then q
  else if d < 2 * r then q + 1
  else if q % 2 = 0 then q else q + 1

/-- Python `round(x, 3)` on an exact rational. -/
def round3 (x : ℚ) : ℚ := mkRat (roundHalfEven (1000 * x.num) (x.den : ℤ)) 1000

/-! ### §5 of the script: route optimization (facility selection ILP)

The script builds, over `n = min(len(storage_df), 10)` boolean variables
`x[i]` with synthetic costs `distances[i]`, the program
`minimize Σ x[i]*distances[i]  subject to  Σ x[i] ≥ 1`
and hands it to the external SCIP solver. -/

/-- All assignments of `n` boolean variables. -/
def allAssignments : Nat → List (List Bool)
  | 0 => [[]]
  | n + 1 => (allAssignments n).flatMap (fun xs => [true :: xs, false :: xs])

/-- `Σ x[i]` for boolean `x[i]` — the left side of the coverage constraint. -/
def indSum (x : List Bool) : Nat := (x.map (fun b => if b then 1 else 0)).sum

/-- `Σ x[i] * distances[i]` — the ILP objective. -/
def objective (costs : List Nat) (x : List Bool) : Nat :=
  (List.zipWith (fun b c => if b then c else 0) x costs).sum

/-- Modelled from the spec: the call to the external SCIP solver via
`ortools` (not part of this repository). §4.1 of the spec requires the
solver to deliver global optimality of the 0/1 program, so it is modelled
as the exact minimum of the objective over the feasible assignments. -/
def ilpSolve (costs : List Nat) : Option Nat :=
  natMin? (((allAssignments costs.length).filter
    (fun x => decide (1 ≤ indSum x))).map (objective costs))

/-- `optimized_distance` of the script: `None` when the Storage table is
empty, else the solver's optimum over the first `min(N, 10)` rows with the
given per-row costs. -/
def optimized_distance (storageLen : Nat) (cost : Nat → Nat) : Option Nat :=
  if min storageLen 10 = 0 then none
  else ilpSolve ((List.range (min storageLen 10)).map cost)

/-- Spec-side formulation (§4.1/§8): the minimum of the summed cost over
all non-empty subsets of the first `min(N, 10)` rows. -/
def subsetMinScore (storageLen : Nat) (cost : Nat → Nat) : Option Nat :=
  natMin? (((((List.range (min storageLen 10)).map cost)).sublists.filter
    (fun s => decide (s ≠ []))).map (fun s => s.sum))

/-! ### §6 of the script: slotting aggregation -/

/-- A view of the Product table: its column names, and per row the values
of the category and SKU columns. -/
structure ProductTable where
  cols : List String
  rows : List (String × String)

/-- Rows in category `c` — `groupby("Category")["SKU"].count()` counts the
(null-filled, hence all non-null) SKU cells of the group, i.e. its rows. -/
def countCat (rows : List (String × String)) (c : String) : Nat :=
  rows.countP (fun r => decide (r.1 = c))

/-- `product_df.groupby("Category")["SKU"].count()`: group keys ascending
(pandas sorts them), with the row count of each group. -/
def zone_assignment (rows : List (String × String)) : List (String × Nat) :=
  (sortedDedup (rows.map Prod.fst)).map (fun c => (c, countCat rows c))

/-- Sort key of `.sort_values("SKU", ascending=False)`: count descending. -/
def slotLE (p q : String × Nat) : Prop := q.2 ≤ p.2

instance : DecidableRel slotLE := fun p q => Nat.decLe q.2 p.2

instance : IsTotal (String × Nat) slotLE :=
  ⟨fun p q => (Nat.le_total q.2 p.2).imp (fun h => h) (fun h => h)⟩

instance : IsTrans (String × Nat) slotLE :=
  ⟨fun _ _ _ h1 h2 => Nat.le_trans h2 h1⟩

/-- `slotting_result` of the script: the top 5 `(Category, count)` records,
or `[]` when the table is empty or a needed column is missing. -/
def slotting_result (t : ProductTable) : List (String × Nat) :=
  if t.rows ≠ [] ∧ "Category" ∈ t.cols ∧ "SKU" ∈ t.cols then
    (List.insertionSort slotLE (zone_assignment t.rows)).take 5
  else []

/-! ### §10.3 of the script: co-pick association mining -/

def waveCandidates : List String := ["waveNumber", "WaveNumber", "WAVE", "wave_id"]

def skuCandidates : List String := ["SKU", "reference", "Item", "sku"]

/-- `safe_col`: the first candidate that is a column of the table. -/
def safe_col (cols : List String) (cands : List String) : Option String :=
  cands.find? (fun c => cols.contains c)

/-- A view of the Picking table: its column names, and per row the values
of the detected wave and SKU columns (as strings). -/
structure PickingTable where
  cols : List String
  rows : List (String × String)

/-- `picking_df.groupby(wave_col)[sku_col].apply(lambda s: set(s.astype(str)))`:
one basket per distinct wave id (keys ascending), each the sorted distinct
SKUs of that wave. -/
def baskets (rows : List (String × String)) : List (List String) :=
  (sortedDedup (rows.map Prod.fst)).map
    (fun w => sortedDedup ((rows.filter (fun r => decide (r.1 = w))).map Prod.snd))

/-- `item_ct[a]`: number of baskets containing `a` (each basket is a set,
so the per-basket loop increments once per containing basket). -/
def item_ct (bs : List (List String)) (a : String) : Nat :=
  bs.countP (fun items => decide (a ∈ items))

/-- `pair_ct[(a,b)]`: number of baskets whose 2-combinations contain the
(canonically ordered) pair. -/
def pair_ct (bs : List (List String)) (p : String × String) : Nat :=
  bs.countP (fun items => decide (p ∈ pairs2 items))

/-- The keys of `pair_ct`, in first-encountered order (Python dict order). -/
def pairKeys (bs : List (List String)) : List (String × String) :=
  firstDedup (bs.flatMap pairs2)

/-- The `1e-9` guard added to the lift denominator (the float literal is
modelled as the exact rational). -/
def epsQ : ℚ := mkRat 1 1000000000

/-- `supp_ab = cnt / n`. -/
def suppExact (bs : List (List String)) (p : String × String) : ℚ :=
  mkRat (pair_ct bs p) bs.length

/-- `supp_a = item_ct[a] / n`. -/
def suppItem (bs : List (List String)) (a : String) : ℚ :=
  mkRat (item_ct bs a) bs.length

/-- `conf_a_b = cnt / item_ct[a]`. -/
def confExact (bs : List (List String)) (p : String × String) : ℚ :=
  mkRat (pair_ct bs p) (item_ct bs p.1)

/-- `lift = supp_ab / (supp_a * supp_b + 1e-9)`. -/
def liftExact (bs : List (List String)) (p : String × String) : ℚ :=
  qDiv (suppExact bs p) (qAdd (qMul (suppItem bs p.1) (suppItem bs p.2)) epsQ)

/-- An element of `copick_rules` (`support`/`confidence`/`lift` are the
values rounded to 3 decimals that the script stores). -/
structure AssocRule where
  antecedent : String
  consequent : String
  support : ℚ
  confidence : ℚ
  lift : ℚ
  count : Nat
deriving DecidableEq

/-- The retention filter `cnt > 5 and conf_a_b > 0.05 and lift > 1.1`
(float literals modelled as exact rationals). -/
def keepRule (bs : List (List String)) (p : String × String) : Prop :=
  5 < pair_ct bs p ∧ mkRat 1 20 < confExact bs p ∧ mkRat 11 10 < liftExact bs p

instance (bs : List (List String)) (p : String × String) :
    Decidable (keepRule bs p) := by
  unfold keepRule; infer_instance

/-- `rules_tmp`: one candidate record per `pair_ct` key that clears the
retention filter. -/
def rules_tmp (bs : List (List String)) : List AssocRule :=
  (pairKeys bs).filterMap (fun p =>
    if keepRule bs p then
      some ⟨p.1, p.2, round3 (suppExact bs p), round3 (confExact bs p),
            round3 (liftExact bs p), pair_ct bs p⟩
    else none)

/-- Sort key of `sorted(rules_tmp, key=lambda r: (r["lift"], r["count"]),
reverse=True)`: `(lift, count)` descending, lexicographically. -/
def ruleGE (r s : AssocRule) : Prop :=
  s.lift < r.lift ∨ (s.lift = r.lift ∧ s.count ≤ r.count)

instance : DecidableRel ruleGE := fun r s => by
  unfold ruleGE; infer_instance

instance : IsTotal AssocRule ruleGE := by
  constructor
  intro r s
  rcases lt_trichotomy r.lift s.lift with h | h | h
  · exact Or.inr (Or.inl h)
  · rcases Nat.le_total s.count r.count with hc | hc
    · exact Or.inl (Or.inr ⟨h.symm, hc⟩)
    · exact Or.inr (Or.inr ⟨h, hc⟩)
  · exact Or.inl (Or.inl h)

instance : IsTrans AssocRule ruleGE := by
  constructor
  intro a b c hab hbc
  rcases hab with h1 | ⟨h1, h1c⟩
  · rcases hbc with h2 | ⟨h2, _⟩
    · exact Or.inl (lt_trans h2 h1)
    · exact Or.inl (h2 ▸ h1)
  · rcases hbc with h2 | ⟨h2, h2c⟩
    · exact Or.inl (h1 ▸ h2)
    · exact Or.inr ⟨h2.trans h1, h2c.trans h1c⟩

/-- `copick_rules`: empty when the Picking table is empty or wave/SKU
column detection fails; else the retained rules sorted by `(lift, count)`
descending, truncated to 50. -/
def copick_rules (t : PickingTable) : List AssocRule :=
  if t.rows ≠ [] ∧ (safe_col t.cols waveCandidates).isSome ∧
      (safe_col t.cols skuCandidates).isSome then
    (List.insertionSort ruleGE (rules_tmp (baskets t.rows))).take 50
  else []

/-! ### §10.2 of the script: schema fingerprints and drift -/

/-- What `fingerprint(df)` reads from a table: whether it is empty
(`df.empty`: no rows — or no columns) and the ordered `(name, dtype)`
pairs of its columns. -/
structure SchemaView where
  rowCount : Nat
  cols : List (String × String)

structure Fingerprint where
  columns : List String
  hash : Option String
deriving DecidableEq

/-- `f"{c}:{dtype}"` for one column. -/
def partChars (p : String × String) : List Char := p.1.data ++ ':' :: p.2.data

/-- `"|".join(f"{c}:{dtype}" for each column)`, at the character level. -/
def comboChars : List (String × String) → List Char
  | [] => []
  | [p] => partChars p
  | p :: q :: r => partChars p ++ '|' :: comboChars (q :: r)

/-- Modelled from the spec: `hashlib.md5(combo).hexdigest()` (the hash
function is not part of this repository); §4.4 treats it as a content hash
that differs whenever the joined `name:type` string differs, so it is
modelled as an injective function of the combo string. -/
def md5Hex (s : String) : String := s

/-- `fingerprint(df)`: empty tables have `hash = None`. -/
def fingerprint (t : SchemaView) : Fingerprint :=
  if t.rowCount = 0 ∨ t.cols = [] then ⟨[], none⟩
  else ⟨t.cols.map Prod.fst, some (md5Hex ⟨comboChars t.cols⟩)⟩

/-- `schema_changed(cur, prev) = prev and cur.get("hash") != prev.get("hash")`:
a falsy `prev` (absent key, empty dict) is `none`. -/
def schema_changed (cur : Fingerprint) (prev : Option Fingerprint) : Bool :=
  match prev with
  | none => false
  | some p => decide (cur.hash ≠ p.hash)

/-- `prev_json.get("schema_fingerprint", {})`, one optional fingerprint per
table; all `none` when the previous document was unavailable. -/
structure PrevSchema where
  picking : Option Fingerprint
  product : Option Fingerprint
  storage : Option Fingerprint
  support : Option Fingerprint

def emptyPrev : PrevSchema := ⟨none, none, none, none⟩

structure DriftFlags where
  picking : Bool
  product : Bool
  storage : Bool
  support : Bool
deriving DecidableEq

/-- The `schema_drift` block. -/
def schema_drift (pk pr st su : SchemaView) (prev : PrevSchema) : DriftFlags :=
  ⟨schema_changed (fingerprint pk) prev.picking,
   schema_changed (fingerprint pr) prev.product,
   schema_changed (fingerprint st) prev.storage,
   schema_changed (fingerprint su) prev.support⟩

/-! ### §10.5 of the script: automation score and triggers -/

/-- A slot relocation suggestion (§10.4); only its presence matters to the
scorer. -/
structure Suggestion where
  sku : String
  recommended_location : String
deriving DecidableEq

def anyDrift (d : DriftFlags) : Bool :=
  d.picking || d.product || d.storage || d.support

/-- The script's score accumulation. The `schema_drift` dict has four keys,
hence is always truthy, so its guard reduces to `not any(...)`; `reachable`
is `data_freshness["output_json"].get("reachable", True)`, true exactly when
the metadata fetch of the previously persisted document succeeded. -/
def automation_score (rules : List AssocRule) (suggestions : List Suggestion)
    (drift : DriftFlags) (reachable : Bool) : Nat :=
  let s1 := if rules ≠ [] then 0 + 30 else 0
  let s2 := if suggestions ≠ [] then s1 + 30 else s1
  let s3 := if anyDrift drift then s2 else s2 + 20
  if reachable then s3 + 20 else s3

/-- The `n8n_triggers` list, by trigger type. -/
def n8n_triggers (drift : DriftFlags) (score : Nat) : List String :=
  (if anyDrift drift then ["schema_drift"] else []) ++
  (if score < 50 then ["low_automation_value"] else [])

/-! ### Lemmas on the lexicographic order -/

/-- Python's `<` on strings, as a proposition. -/
def sLt (a b : String) : Prop := strLt a b = true

theorem lexLt_nil_right (l : List Char) : lexLt l [] = false := by
  cases l <;> rfl

theorem lexLt_irrefl : ∀ l : List Char, lexLt l l = false
  | [] => rfl
  | a :: as => by
    show (if a < a then true else if a < a then false else lexLt as as) = false
    rw [if_neg (lt_irrefl a), if_neg (lt_irrefl a)]
    exact lexLt_irrefl as

theorem lexLt_asymm : ∀ l₁ l₂ : List Char, lexLt l₁ l₂ = true → lexLt l₂ l₁ = false
  | _, [], h => by rw [lexLt_nil_right] at h; cases h
  | [], _ :: _, _ => rfl
  | a :: as, b :: bs, h => by
    by_cases hab : a < b
    · show (if b < a then true else if a < b then false else lexLt bs as) = false
      rw [if_neg (lt_asymm hab), if_pos hab]
    · by_cases hba : b < a
      · exfalso
        have he : lexLt (a :: as) (b :: bs) = false := by
          show (if a < b then true else if b < a then false else lexLt as bs) = false
          rw [if_neg hab, if_pos hba]
        rw [he] at h; cases h
      · have h' : lexLt as bs = true := by
          have he : lexLt (a :: as) (b :: bs) = lexLt as bs := by
            show (if a < b then true else if b < a then false else lexLt as bs) = _
            rw [if_neg hab, if_neg hba]
          rw [← he]; exact h
        show (if b < a then true else if a < b then false else lexLt bs as) = false
        rw [if_neg hba, if_neg hab]
        exact lexLt_asymm as bs h'

theorem lexLt_trans : ∀ l₁ l₂ l₃ : List Char,
    lexLt l₁ l₂ = true → lexLt l₂ l₃ = true → lexLt l₁ l₃ = true
  | _, _, [], _, h2 => by rw [lexLt_nil_right] at h2; cases h2
  | _, [], _ :: _, h1, _ => by rw [lexLt_nil_right] at h1; cases h1
  | [], _ :: _, _ :: _, _, _ => rfl
  | a :: as, b :: bs, c :: cs, h1, h2 => by
    show (if a < c then true else if c < a then false else lexLt as cs) = true
    by_cases hab : a < b
    · by_cases hbc : b < c
      · rw [if_pos (lt_trans hab hbc)]
      · by_cases hcb : c < b
        · exfalso
          have he : lexLt (b :: bs) (c :: cs) = false := by
            show (if b < c then true else if c < b then false else lexLt bs cs) = false
            rw [if_neg hbc, if_pos hcb]
          rw [he] at h2; cases h2
        · have hbceq : b = c := le_antisymm (not_lt.mp hcb) (not_lt.mp hbc)
          rw [if_pos (hbceq ▸ hab)]
    · by_cases hba : b < a
      · exfalso
        have he : lexLt (a :: as) (b :: bs) = false := by
          show (if a < b then true else if b < a then false else lexLt as bs) = false
          rw [if_neg hab, if_pos hba]
        rw [he] at h1; cases h1
      · have habeq : a = b := le_antisymm (not_lt.mp hba) (not_lt.mp hab)
        have h1' : lexLt as bs = true := by
          have he : lexLt (a :: as) (b :: bs) = lexLt as bs := by
            show (if a < b then true else if b < a then false else lexLt as bs) = _
            rw [if_neg hab, if_neg hba]
          rw [← he]; exact h1
        by_cases hbc : b < c
        · rw [if_pos (habeq ▸ hbc)]
        · by_cases hcb : c < b
          · exfalso
            have he : lexLt (b :: bs) (c :: cs) = false := by
              show (if b < c then true else if c < b then false else lexLt bs cs) = false
              rw [if_neg hbc, if_pos hcb]
            rw [he] at h2; cases h2
          · have hbceq : b = c := le_antisymm (not_lt.mp hcb) (not_lt.mp hbc)
            have h2' : lexLt bs cs = true := by
              have he : lexLt (b :: bs) (c :: cs) = lexLt bs cs := by
                show (if b < c then true else if c < b then false else lexLt bs cs) = _
                rw [if_neg hbc, if_neg hcb]
              rw [← he]; exact h2
            have hac : ¬ a < c := fun h => (habeq ▸ hbceq ▸ h).false
            have hca : ¬ c < a := fun h => (habeq ▸ hbceq ▸ h).false
            rw [if_neg hac, if_neg hca]
            exact lexLt_trans as bs cs h1' h2'

theorem lexLt_connex : ∀ l₁ l₂ : List Char,
    lexLt l₁ l₂ = false → lexLt l₂ l₁ = false → l₁ = l₂
  | [], [], _, _ => rfl
  | [], _ :: _, h1, _ => by cases h1
  | _ :: _, [], _, h2 => by cases h2
  | a :: as, b :: bs, h1, h2 => by
    by_cases hab : a < b
    · exfalso
      have he : lexLt (a :: as) (b :: bs) = true := by
        show (if a < b then true else if b < a then false else lexLt as bs) = true
        rw [if_pos hab]
      rw [he] at h1; cases h1
    · by_cases hba : b < a
      · exfalso
        have he : lexLt (b :: bs) (a :: as) = true := by
          show (if b < a then true else if a < b then false else lexLt bs as) = true
          rw [if_pos hba]
        rw [he] at h2; cases h2
      · have habeq : a = b := le_antisymm (not_lt.mp hba) (not_lt.mp hab)
        have h1' : lexLt as bs = false := by
          have he : lexLt (a :: as) (b :: bs) = lexLt as bs := by
            show (if a < b then true else if b < a then false else lexLt as bs) = _
            rw [if_neg hab, if_neg hba]
          rw [← he]; exact h1
        have h2' : lexLt bs as = false := by
          have he : lexLt (b :: bs) (a :: as) = lexLt bs as := by
            show (if b < a then true else if a < b then false else lexLt bs as) = _
            rw [if_neg hba, if_neg hab]
          rw [← he]; exact h2
        rw [habeq, lexLt_connex as bs h1' h2']

theorem strLt_irrefl (a : String) : strLt a a = false := lexLt_irrefl _

theorem strLt_asymm {a b : String} (h : strLt a b = true) : strLt b a = false :=
  lexLt_asymm _ _ h

theorem strLt_trans {a b c : String} (h1 : strLt a b = true) (h2 : strLt b c = true) :
    strLt a c = true :=
  lexLt_trans _ _ _ h1 h2

theorem strLt_connex {a b : String} (h1 : strLt a b = false) (h2 : strLt b a = false) :
    a = b :=
  String.ext (lexLt_connex _ _ h1 h2)

/-! ### Lemmas on `insDedup` / `sortedDedup` -/

theorem mem_insDedup (x y : String) :
    ∀ l : List String, (y ∈ insDedup x l ↔ y = x ∨ y ∈ l)
  | [] => by simp [insDedup]
  | z :: zs => by
    unfold insDedup
    by_cases h1 : strLt x z = true
    · rw [if_pos h1]; simp
    · rw [if_neg h1]
      by_cases h2 : strLt z x = true
      · rw [if_pos h2]
        have := mem_insDedup x y zs
        simp only [List.mem_cons, this]
        tauto
      · rw [if_neg h2]
        have hxz : z = x :=
          strLt_connex (Bool.not_eq_true _ ▸ h2) (Bool.not_eq_true _ ▸ h1)
        subst hxz
        simp only [List.mem_cons]
        tauto

theorem pairwise_insDedup (x : String) :
    ∀ l : List String, l.Pairwise sLt → (insDedup x l).Pairwise sLt
  | [], _ => by simp [insDedup, sLt]
  | z :: zs, h => by
    unfold insDedup
    rcases List.pairwise_cons.mp h with ⟨hz, hzs⟩
    by_cases h1 : strLt x z = true
    · rw [if_pos h1]
      refine List.pairwise_cons.mpr ⟨?_, h⟩
      intro w hw
      rcases List.mem_cons.mp hw with rfl | hw
      · exact h1
      · exact strLt_trans h1 (hz w hw)
    · rw [if_neg h1]
      by_cases h2 : strLt z x = true
      · rw [if_pos h2]
        refine List.pairwise_cons.mpr ⟨?_, pairwise_insDedup x zs hzs⟩
        intro w hw
        rcases (mem_insDedup x w zs).mp hw with rfl | hw
        · exact h2
        · exact hz w hw
      · rw [if_neg h2]
        exact h

theorem pairwise_sortedDedup : ∀ l : List String, (sortedDedup l).Pairwise sLt
  | [] => by simp [sortedDedup]
  | x :: xs => pairwise_insDedup x (sortedDedup xs) (pairwise_sortedDedup xs)

theorem mem_sortedDedup (y : String) : ∀ l : List String, (y ∈ sortedDedup l ↔ y ∈ l)
  | [] => by simp [sortedDedup]
  | x :: xs => by
    show y ∈ insDedup x (sortedDedup xs) ↔ _
    rw [mem_insDedup, mem_sortedDedup y xs]
    simp

/-! ### Lemmas on `pairs2` and `firstDedup` -/

theorem mem_pairs2 : ∀ {l : List String} {p : String × String},
    p ∈ pairs2 l → p.1 ∈ l ∧ p.2 ∈ l
  | x :: xs, p, h => by
    rcases List.mem_append.mp h with h | h
    · rcases List.mem_map.mp h with ⟨y, hy, rfl⟩
      exact ⟨List.mem_cons_self _ _, List.mem_cons_of_mem _ hy⟩
    · have := mem_pairs2 h
      exact ⟨List.mem_cons_of_mem _ this.1, List.mem_cons_of_mem _ this.2⟩

theorem pairs2_sLt : ∀ {l : List String}, l.Pairwise sLt →
    ∀ {p : String × String}, p ∈ pairs2 l → sLt p.1 p.2
  | x :: xs, h, p, hp => by
    rcases List.pairwise_cons.mp h with ⟨hx, hxs⟩
    rcases List.mem_append.mp hp with hp | hp
    · rcases List.mem_map.mp hp with ⟨y, hy, rfl⟩
      exact hx y hy
    · exact pairs2_sLt hxs hp

theorem firstDedup_aux {α : Type} [DecidableEq α] :
    ∀ (l : List α) (acc : List α), acc.Nodup →
      ((l.foldl (fun acc x => if x ∈ acc then acc else acc ++ [x]) acc).Nodup ∧
       ∀ y, y ∈ l.foldl (fun acc x => if x ∈ acc then acc else acc ++ [x]) acc ↔
         y ∈ acc ∨ y ∈ l)
  | [], acc, h => ⟨h, by simp⟩
  | x :: xs, acc, h => by
    simp only [List.foldl_cons]
    by_cases hx : x ∈ acc
    · simp only [if_pos hx]
      rcases firstDedup_aux xs acc h with ⟨h1, h2⟩
      refine ⟨h1, fun y => ?_⟩
      rw [h2 y]
      simp only [List.mem_cons]
      constructor
      · tauto
      · rintro (h | rfl | h)
        exacts [Or.inl h, Or.inl hx, Or.inr h]
    · simp only [if_neg hx]
      have hacc : (acc ++ [x]).Nodup := by
        simp [List.nodup_append, h, hx]
      rcases firstDedup_aux xs (acc ++ [x]) hacc with ⟨h1, h2⟩
      refine ⟨h1, fun y => ?_⟩
      rw [h2 y]
      simp only [List.mem_append, List.mem_singleton, List.mem_cons]
      tauto

theorem nodup_firstDedup {α : Type} [DecidableEq α] (l : List α) :
    (firstDedup l).Nodup :=
  (firstDedup_aux l [] List.nodup_nil).1

theorem mem_firstDedup {α : Type} [DecidableEq α] {l : List α} {y : α} :
    y ∈ firstDedup l ↔ y ∈ l := by
  rw [firstDedup, (firstDedup_aux l [] List.nodup_nil).2 y]
  simp

/-! ### Lemmas on `natMin?` -/

theorem foldlMin_spec : ∀ (xs : List Nat) (x : Nat),
    xs.foldl Nat.min x ∈ x :: xs ∧ ∀ y ∈ x :: xs, xs.foldl Nat.min x ≤ y
  | [], x => by simp
  | z :: zs, x => by
    simp only [List.foldl_cons]
    rcases foldlMin_spec zs (Nat.min x z) with ⟨h1, h2⟩
    constructor
    · rcases List.mem_cons.mp h1 with he | hm
      · rw [he]
        by_cases hxz : x ≤ z
        · have hc : Nat.min x z = x := Nat.min_eq_left hxz
          rw [hc]; exact List.mem_cons_self _ _
        · have hc : Nat.min x z = z := Nat.min_eq_right (Nat.le_of_not_le hxz)
          rw [hc]; exact List.mem_cons_of_mem _ (List.mem_cons_self _ _)
      · exact List.mem_cons_of_mem _ (List.mem_cons_of_mem _ hm)
    · intro y hy
      rcases List.mem_cons.mp hy with rfl | hy
      · exact le_trans (h2 _ (List.mem_cons_self _ _)) (Nat.min_le_left _ _)
      · rcases List.mem_cons.mp hy with rfl | hy
        · exact le_trans (h2 _ (List.mem_cons_self _ _)) (Nat.min_le_right _ _)
        · exact h2 y (List.mem_cons_of_mem _ hy)

theorem natMin?_spec {l : List Nat} {m : Nat} (h : natMin? l = some m) :
    m ∈ l ∧ ∀ y ∈ l, m ≤ y := by
  cases l with
  | nil => cases h
  | cons x xs =>
    have hm : m = xs.foldl Nat.min x := by
      have : some (xs.foldl Nat.min x) = some m := h
      exact (Option.some.inj this).symm
    subst hm
    exact foldlMin_spec xs x

theorem natMin?_congr {l₁ l₂ : List Nat}
    (h1 : ∀ a ∈ l₁, ∃ b ∈ l₂, b ≤ a) (h2 : ∀ b ∈ l₂, ∃ a ∈ l₁, a ≤ b) :
    natMin? l₁ = natMin? l₂ := by
  match l₁, l₂ with
  | [], [] => rfl
  | [], b :: bs =>
    rcases h2 b (List.mem_cons_self _ _) with ⟨a, ha, _⟩
    cases ha
  | a :: as, [] =>
    rcases h1 a (List.mem_cons_self _ _) with ⟨b, hb, _⟩
    cases hb
  | a :: as, b :: bs =>
    rcases natMin?_spec (l := a :: as) rfl with ⟨hm1, hb1⟩
    rcases natMin?_spec (l := b :: bs) rfl with ⟨hm2, hb2⟩
    rcases h1 _ hm1 with ⟨u, hu, hua⟩
    rcases h2 _ hm2 with ⟨v, hv, hvb⟩
    have hle : bs.foldl Nat.min b ≤ as.foldl Nat.min a := le_trans (hb2 u hu) hua
    have hge : as.foldl Nat.min a ≤ bs.foldl Nat.min b := le_trans (hb1 v hv) hvb
    show some _ = some _
    rw [le_antisymm hge hle]

/-! ### Claim C1: facility-selection optimality -/

theorem mem_allAssignments : ∀ {n : Nat} {x : List Bool},
    x ∈ allAssignments n ↔ x.length = n := by
  intro n
  induction n with
  | zero => intro x; simp [allAssignments, List.length_eq_zero]
  | succ n ih =>
    intro x
    constructor
    · intro hx
      rcases List.mem_flatMap.mp hx with ⟨xs, hxs, hmem⟩
      rcases List.mem_cons.mp hmem with rfl | hmem
      · simp [ih.mp hxs]
      · rcases List.mem_cons.mp hmem with rfl | hmem
        · simp [ih.mp hxs]
        · cases hmem
    · intro hx
      cases x with
      | nil => cases hx
      | cons b xs =>
        have hxs : xs ∈ allAssignments n := ih.mpr (Nat.succ_injective hx)
        refine List.mem_flatMap.mpr ⟨xs, hxs, ?_⟩
        cases b <;> simp

theorem objective_lower : ∀ (costs : List Nat) (x : List Bool),
    x.length = costs.length → 1 ≤ indSum x → ∃ c ∈ costs, c ≤ objective costs x
  | [], x, hlen, hsum => by
    rw [List.length_eq_zero.mp hlen] at hsum
    cases hsum
  | c :: cs, x, hlen, hsum => by
    cases x with
    | nil => cases hlen
    | cons b xs =>
      cases b with
      | true =>
        refine ⟨c, List.mem_cons_self _ _, ?_⟩
        show c ≤ (List.zipWith _ (true :: xs) (c :: cs)).sum
        simp only [List.zipWith_cons_cons, List.sum_cons, if_pos]
        exact Nat.le_add_right _ _
      | false =>
        have hsum' : 1 ≤ indSum xs := by
          simpa [indSum] using hsum
        rcases objective_lower cs xs (Nat.succ_injective hlen) hsum' with ⟨d, hd, hle⟩
        refine ⟨d, List.mem_cons_of_mem _ hd, ?_⟩
        show d ≤ (List.zipWith _ (false :: xs) (c :: cs)).sum
        simpa [objective] using hle

/-- The assignment selecting only variable `i`. -/
def unitVec : Nat → Nat → List Bool
  | _, 0 => []
  | 0, n + 1 => true :: List.replicate n false
  | i + 1, n + 1 => false :: unitVec i n

theorem length_unitVec : ∀ i n, (unitVec i n).length = n
  | 0, 0 => rfl
  | _ + 1, 0 => rfl
  | 0, n + 1 => by simp [unitVec]
  | i + 1, n + 1 => by
    show (unitVec i n).length + 1 = n + 1
    rw [length_unitVec i n]

theorem indSum_unitVec : ∀ i n, i < n → 1 ≤ indSum (unitVec i n)
  | 0, n + 1, _ => by simp [unitVec, indSum]
  | i + 1, n + 1, h => by
    have := indSum_unitVec i n (Nat.lt_of_succ_lt_succ h)
    simpa [unitVec, indSum] using this

theorem objective_replicate_false : ∀ (cs : List Nat) (n : Nat),
    (List.zipWith (fun b c => if b then c else 0) (List.replicate n false) cs).sum = 0
  | [], _ => by simp
  | _ :: _, 0 => by simp
  | c :: cs, n + 1 => by
    simpa [List.replicate_succ] using objective_replicate_false cs n

theorem objective_unitVec : ∀ (costs : List Nat) (i : Nat) (h : i < costs.length),
    objective costs (unitVec i costs.length) = costs.get ⟨i, h⟩
  | c :: cs, 0, _ => by
    show (List.zipWith _ (true :: List.replicate cs.length false) (c :: cs)).sum = c
    simp [objective_replicate_false]
  | c :: cs, i + 1, h => by
    show (List.zipWith _ (false :: unitVec i cs.length) (c :: cs)).sum = _
    have := objective_unitVec cs i (Nat.lt_of_succ_lt_succ h)
    simpa [objective] using this

theorem ilpSolve_eq_natMin (costs : List Nat) (h : costs ≠ []) :
    ilpSolve costs = natMin? costs := by
  apply natMin?_congr
  · intro a ha
    rcases List.mem_map.mp ha with ⟨x, hx, rfl⟩
    rcases List.mem_filter.mp hx with ⟨hx1, hx2⟩
    have hlen : x.length = costs.length := mem_allAssignments.mp hx1
    have hsum : 1 ≤ indSum x := of_decide_eq_true hx2
    exact objective_lower costs x hlen hsum
  · intro b hb
    rcases List.mem_iff_getElem.mp hb with ⟨i, hi, rfl⟩
    refine ⟨objective costs (unitVec i costs.length), ?_, ?_⟩
    · refine List.mem_map.mpr ⟨unitVec i costs.length, ?_, rfl⟩
      refine List.mem_filter.mpr ⟨mem_allAssignments.mpr (length_unitVec _ _), ?_⟩
      exact decide_eq_true (indSum_unitVec i costs.length hi)
    · rw [objective_unitVec costs i hi]
      exact le_of_eq (List.get_eq_getElem _ _)

theorem subsetMin_eq_natMin (l : List Nat) :
    natMin? ((l.sublists.filter (fun s => decide (s ≠ []))).map (fun s => s.sum)) =
      natMin? l := by
  apply natMin?_congr
  · intro a ha
    rcases List.mem_map.mp ha with ⟨s, hs, rfl⟩
    rcases List.mem_filter.mp hs with ⟨hs1, hs2⟩
    have hsub : s.Sublist l := List.mem_sublists.mp hs1
    have hne : s ≠ [] := of_decide_eq_true hs2
    cases s with
    | nil => exact absurd rfl hne
    | cons c t =>
      refine ⟨c, hsub.mem (List.mem_cons_self _ _), ?_⟩
      simp only [List.sum_cons]
      exact Nat.le_add_right _ _
  · intro b hb
    refine ⟨[b].sum, ?_, le_of_eq (by simp)⟩
    refine List.mem_map.mpr ⟨[b], ?_, rfl⟩
    refine List.mem_filter.mpr ⟨List.mem_sublists.mpr (List.singleton_sublist.mpr hb), by simp⟩

/-- **C1** (facility selection optimality and empty-input behaviour).
For a Storage table with `N` rows and per-row costs, the optimizer's score
is the minimum of the summed cost over all non-empty subsets of the first
`min(N,10)` rows; for `N > 0` it equals the single cheapest of those rows'
costs (`natMin?`), and for an empty Storage table it is `none` (the stage
is a total function, so no exception arises). -/
theorem c1_facility_selection (storageLen : Nat) (cost : Nat → Nat) :
    optimized_distance storageLen cost = subsetMinScore storageLen cost ∧
    (storageLen = 0 → optimized_distance storageLen cost = none) ∧
    (0 < storageLen →
      optimized_distance storageLen cost =
        natMin? ((List.range (min storageLen 10)).map cost)) := by
  by_cases h0 : min storageLen 10 = 0
  · have hs : storageLen = 0 := by omega
    subst hs
    exact ⟨rfl, fun _ => rfl, fun h => absurd h (by omega)⟩
  · have hne : (List.range (min storageLen 10)).map cost ≠ [] := by
      intro he
      have := congrArg List.length he
      simp at this
      omega
    have hopt : optimized_distance storageLen cost =
        natMin? ((List.range (min storageLen 10)).map cost) := by
      rw [optimized_distance, if_neg h0]
      exact ilpSolve_eq_natMin _ hne
    refine ⟨?_, fun hs => absurd (by omega : min storageLen 10 = 0) h0, fun _ => hopt⟩
    rw [hopt, subsetMinScore, subsetMin_eq_natMin]

/-- Witness for C1 at a table with 3 rows and costs `30, 20, 10`. -/
theorem c1_facility_selection_witness :
    optimized_distance 3 (fun i => 30 - 10 * i) = subsetMinScore 3 (fun i => 30 - 10 * i) ∧
    (0 < 3) ∧
    optimized_distance 3 (fun i => 30 - 10 * i) = some 10 ∧
    optimized_distance 0 (fun i => 30 - 10 * i) = none := by
  refine ⟨(c1_facility_selection 3 (fun i => 30 - 10 * i)).1, by decide, ?_, ?_⟩
  · rw [(c1_facility_selection 3 (fun i => 30 - 10 * i)).2.2 (by decide)]
    decide
  · exact (c1_facility_selection 0 (fun i => 30 - 10 * i)).2.1 rfl

/-! ### Shared facts about the miner's baskets, counters and rules -/

theorem sLt_ne {a b : String} (h : sLt a b) : a ≠ b := by
  intro he
  rw [he, sLt, strLt_irrefl] at h
  cases h

theorem baskets_sorted {rows : List (String × String)} {items : List String}
    (h : items ∈ baskets rows) : items.Pairwise sLt := by
  rcases List.mem_map.mp h with ⟨w, _, rfl⟩
  exact pairwise_sortedDedup _

theorem pairKeys_sLt {rows : List (String × String)} {p : String × String}
    (hp : p ∈ pairKeys (baskets rows)) : sLt p.1 p.2 := by
  rcases List.mem_flatMap.mp (mem_firstDedup.mp hp) with ⟨items, hitems, hpair⟩
  exact pairs2_sLt (baskets_sorted hitems) hpair

theorem mem_rules_tmp {bs : List (List String)} {r : AssocRule} (h : r ∈ rules_tmp bs) :
    (r.antecedent, r.consequent) ∈ pairKeys bs ∧
    keepRule bs (r.antecedent, r.consequent) ∧
    r.support = round3 (suppExact bs (r.antecedent, r.consequent)) ∧
    r.confidence = round3 (confExact bs (r.antecedent, r.consequent)) ∧
    r.lift = round3 (liftExact bs (r.antecedent, r.consequent)) ∧
    r.count = pair_ct bs (r.antecedent, r.consequent) := by
  rcases List.mem_filterMap.mp h with ⟨p, hp, hf⟩
  obtain ⟨a, b⟩ := p
  by_cases hk : keepRule bs (a, b)
  · rw [if_pos hk] at hf
    have hr := Option.some.inj hf
    subst hr
    exact ⟨hp, hk, rfl, rfl, rfl, rfl⟩
  · rw [if_neg hk] at hf
    cases hf

theorem mem_copick_rules {t : PickingTable} {r : AssocRule} (h : r ∈ copick_rules t) :
    r ∈ rules_tmp (baskets t.rows) := by
  unfold copick_rules at h
  split at h
  · have h1 : r ∈ List.insertionSort ruleGE (rules_tmp (baskets t.rows)) :=
      List.Sublist.mem h (List.take_sublist _ _)
    exact (List.mem_insertionSort ruleGE).mp h1
  · cases h

/-! ### Claim C8: counting invariant and pair canonicalization -/

/-- **C8** (counting invariant). For any Picking rows, the miner's counters
satisfy `pair_ct[(a,b)] ≤ min(item_ct[a], item_ct[b])` for every pair, and
every key of `pair_ct` is a canonically ordered pair `(a, b)` with `a`
lexicographically before `b` — so `(A,B)` and `(B,A)` never both occur. -/
theorem c8_counting_invariant (rows : List (String × String)) :
    (∀ a b : String, pair_ct (baskets rows) (a, b) ≤
        min (item_ct (baskets rows) a) (item_ct (baskets rows) b)) ∧
    (∀ p ∈ pairKeys (baskets rows), sLt p.1 p.2 ∧ (p.2, p.1) ∉ pairKeys (baskets rows)) := by
  constructor
  · intro a b
    refine Nat.le_min.mpr ⟨?_, ?_⟩
    · apply List.countP_mono_left
      intro items _ hmem
      exact decide_eq_true (mem_pairs2 (of_decide_eq_true hmem)).1
    · apply List.countP_mono_left
      intro items _ hmem
      exact decide_eq_true (mem_pairs2 (of_decide_eq_true hmem)).2
  · intro p hp
    refine ⟨pairKeys_sLt hp, fun hrev => ?_⟩
    have h1 := pairKeys_sLt hp
    have h2 := pairKeys_sLt hrev
    rw [sLt, strLt_asymm h2] at h1
    cases h1

/-- The example Picking table: wave column `WaveNumber`, SKU column `SKU`;
24 waves, 6 of which contain `{a, b}`, one `{a}`, seventeen `{c}`. -/
def exPicking : PickingTable :=
  ⟨["WaveNumber", "SKU"],
   [("w01", "a"), ("w01", "b"), ("w02", "a"), ("w02", "b"),
    ("w03", "a"), ("w03", "b"), ("w04", "a"), ("w04", "b"),
    ("w05", "a"), ("w05", "b"), ("w06", "a"), ("w06", "b"),
    ("w07", "a"),
    ("w08", "c"), ("w09", "c"), ("w10", "c"), ("w11", "c"),
    ("w12", "c"), ("w13", "c"), ("w14", "c"), ("w15", "c"),
    ("w16", "c"), ("w17", "c"), ("w18", "c"), ("w19", "c"),
    ("w20", "c"), ("w21", "c"), ("w22", "c"), ("w23", "c"), ("w24", "c")]⟩

/-- Witness for C8 at the example table and the pair `("a", "b")`. -/
theorem c8_counting_invariant_witness :
    pair_ct (baskets exPicking.rows) ("a", "b") ≤
      min (item_ct (baskets exPicking.rows) "a") (item_ct (baskets exPicking.rows) "b") ∧
    sLt "a" "b" ∧ ("b", "a") ∉ pairKeys (baskets exPicking.rows) :=
  ⟨(c8_counting_invariant exPicking.rows).1 "a" "b",
   ((c8_counting_invariant exPicking.rows).2 ("a", "b") (by decide)).1,
   ((c8_counting_invariant exPicking.rows).2 ("a", "b") (by decide)).2⟩

/-! ### Claim C2: the retention filter -/

/-- **C2** (rule retention filter). Every produced rule passed the filter:
its count exceeds 5, its computed confidence `cnt / item_ct[antecedent]`
exceeds 0.05, its computed lift exceeds 1.1, and its antecedent differs
from its consequent; conversely a candidate pair failing any threshold
yields no rule. -/
theorem c2_retention_filter :
    (∀ (t : PickingTable), ∀ r ∈ copick_rules t,
      5 < r.count ∧
      mkRat 1 20 < confExact (baskets t.rows) (r.antecedent, r.consequent) ∧
      mkRat 11 10 < liftExact (baskets t.rows) (r.antecedent, r.consequent) ∧
      r.antecedent ≠ r.consequent) ∧
    (∀ (t : PickingTable) (p : String × String), ¬ keepRule (baskets t.rows) p →
      ∀ r ∈ copick_rules t, ¬ (r.antecedent = p.1 ∧ r.consequent = p.2)) := by
  constructor
  · intro t r hr
    rcases mem_rules_tmp (mem_copick_rules hr) with ⟨hkey, ⟨hc, hconf, hlift⟩, _, _, _, hcount⟩
    exact ⟨hcount ▸ hc, hconf, hlift, sLt_ne (pairKeys_sLt hkey)⟩
  · intro t p hnk r hr hcontra
    rcases mem_rules_tmp (mem_copick_rules hr) with ⟨_, hkeep, _⟩
    apply hnk
    have hp : (r.antecedent, r.consequent) = p :=
      Prod.ext_iff.mpr ⟨hcontra.1, hcontra.2⟩
    rw [← hp]
    exact hkeep

/-- Witness for C2 at the example table's single rule. -/
theorem c2_retention_filter_witness :
    (5 < (6:Nat) ∧
      mkRat 1 20 < confExact (baskets exPicking.rows) ("a", "b") ∧
      mkRat 11 10 < liftExact (baskets exPicking.rows) ("a", "b") ∧
      ("a" : String) ≠ "b") ∧
    copick_rules exPicking =
      [⟨"a", "b", mkRat 1 4, mkRat 857 1000, mkRat 3429 1000, 6⟩] := by
  constructor
  · exact (c2_retention_filter.1 exPicking
      ⟨"a", "b", mkRat 1 4, mkRat 857 1000, mkRat 3429 1000, 6⟩ (by decide))
  · decide

/-! ### Claim C3: the stored metric values -/

theorem suppExact_eq_div (bs : List (List String)) (p : String × String) :
    suppExact bs p = (pair_ct bs p : ℚ) / (bs.length : ℚ) := by
  rw [suppExact, Rat.mkRat_eq_div]
  norm_num

theorem confExact_eq_div (bs : List (List String)) (p : String × String) :
    confExact bs p = (pair_ct bs p : ℚ) / (item_ct bs p.1 : ℚ) := by
  rw [confExact, Rat.mkRat_eq_div]
  norm_num

theorem liftExact_eq_div (bs : List (List String)) (p : String × String) :
    liftExact bs p =
      suppExact bs p / (suppItem bs p.1 * suppItem bs p.2 + epsQ) := by
  rw [liftExact, qDiv_eq, qAdd_eq, qMul_eq]

/-- **C3, counterexample**. On the example table the single produced rule
stores `confidence = 0.857`, while `count / item_ct[antecedent] = 6/7`;
the two differ, so the stored confidence is not exactly
`count / ItemCount[antecedent]`. -/
theorem c3_counterexample :
    (copick_rules exPicking).map AssocRule.confidence = [mkRat 857 1000] ∧
    (copick_rules exPicking).map (fun r =>
        confExact (baskets exPicking.rows) (r.antecedent, r.consequent)) = [mkRat 6 7] ∧
    mkRat 857 1000 ≠ mkRat 6 7 := by
  refine ⟨by decide, by decide, by decide⟩

/-- **C3, amended** (rule metric formulas, with rounding). For every
produced rule, the stored `support`, `confidence` and `lift` are the exact
formulas `PairCount/basketTotal`, `count/ItemCount[antecedent]` and
`support / (supportA*supportB + 1e-9)` rounded to 3 decimal places, and the
stored `count` is `PairCount` itself. -/
theorem c3_rounded_metrics (t : PickingTable) :
    ∀ r ∈ copick_rules t,
      r.support = round3 (suppExact (baskets t.rows) (r.antecedent, r.consequent)) ∧
      r.confidence = round3 (confExact (baskets t.rows) (r.antecedent, r.consequent)) ∧
      r.lift = round3 (liftExact (baskets t.rows) (r.antecedent, r.consequent)) ∧
      r.count = pair_ct (baskets t.rows) (r.antecedent, r.consequent) := by
  intro r hr
  rcases mem_rules_tmp (mem_copick_rules hr) with ⟨_, _, h3, h4, h5, h6⟩
  exact ⟨h3, h4, h5, h6⟩

/-- Witness for the amended C3 at the example table's single rule. -/
theorem c3_rounded_metrics_witness :
    mkRat 857 1000 =
      round3 (confExact (baskets exPicking.rows) ("a", "b")) ∧
    (6 : Nat) = pair_ct (baskets exPicking.rows) ("a", "b") := by
  have h := c3_rounded_metrics exPicking
    ⟨"a", "b", mkRat 1 4, mkRat 857 1000, mkRat 3429 1000, 6⟩ (by decide)
  exact ⟨h.2.1, h.2.2.2⟩

/-! ### Claim C7: shape of the rule list -/

/-- **C7** (rule list shape). For every input table, `copick_rules` has at
most 50 elements and is sorted non-increasingly by `(lift, count)`,
lexicographically. -/
theorem c7_rule_list_shape (t : PickingTable) :
    (copick_rules t).length ≤ 50 ∧
    (copick_rules t).Pairwise ruleGE := by
  unfold copick_rules
  split
  · constructor
    · simp [List.length_take]
    · exact List.Pairwise.sublist (List.take_sublist _ _)
        (List.sorted_insertionSort ruleGE _)
  · simp

/-! ### Claim C10: canonical direction of the rules -/

theorem rules_tmp_fields {bs : List (List String)} {p : String × String} {r : AssocRule}
    (h : (if keepRule bs p then
        some (AssocRule.mk p.1 p.2 (round3 (suppExact bs p)) (round3 (confExact bs p))
          (round3 (liftExact bs p)) (pair_ct bs p))
      else none) = some r) :
    r.antecedent = p.1 ∧ r.consequent = p.2 := by
  by_cases hk : keepRule bs p
  · rw [if_pos hk] at h
    have he := Option.some.inj h
    rw [← he]
    exact ⟨rfl, rfl⟩
  · rw [if_neg hk] at h
    cases h

theorem pairwise_filterMap_of {α β : Type} (f : α → Option β)
    {R : α → α → Prop} {S : β → β → Prop} :
    ∀ {l : List α}, l.Pairwise R →
      (∀ a ∈ l, ∀ a' ∈ l, R a a' → ∀ b b', f a = some b → f a' = some b' → S b b') →
      (l.filterMap f).Pairwise S
  | [], _, _ => by simp
  | a :: l, h, H => by
    rcases List.pairwise_cons.mp h with ⟨ha, hl⟩
    have IH : (l.filterMap f).Pairwise S :=
      pairwise_filterMap_of f hl (fun x hx y hy hr => H x (List.mem_cons_of_mem _ hx)
        y (List.mem_cons_of_mem _ hy) hr)
    rw [List.filterMap_cons]
    cases hfa : f a with
    | none => exact IH
    | some b =>
      refine List.pairwise_cons.mpr ⟨?_, IH⟩
      intro b' hb'
      rcases List.mem_filterMap.mp hb' with ⟨a', ha', hfa'⟩
      exact H a (List.mem_cons_self _ _) a' (List.mem_cons_of_mem _ ha')
        (ha a' ha') b b' hfa hfa'

/-- **C10** (implicit: canonical rule direction). Every produced rule has
its antecedent strictly lexicographically smaller than its consequent, and
the rules are pairwise on distinct unordered SKU pairs — the
reverse-direction rule of a produced rule never appears. -/
theorem c10_canonical_direction (t : PickingTable) :
    (∀ r ∈ copick_rules t, sLt r.antecedent r.consequent) ∧
    (copick_rules t).Pairwise (fun r s =>
      ¬(r.antecedent = s.antecedent ∧ r.consequent = s.consequent) ∧
      ¬(r.antecedent = s.consequent ∧ r.consequent = s.antecedent)) := by
  constructor
  · intro r hr
    exact pairKeys_sLt (mem_rules_tmp (mem_copick_rules hr)).1
  · unfold copick_rules
    split
    · apply List.Pairwise.sublist (List.take_sublist _ _)
      have hperm := List.perm_insertionSort ruleGE (rules_tmp (baskets t.rows))
      have hsymm : Symmetric (fun r s : AssocRule =>
          ¬(r.antecedent = s.antecedent ∧ r.consequent = s.consequent) ∧
          ¬(r.antecedent = s.consequent ∧ r.consequent = s.antecedent)) := by
        intro r s hs
        exact ⟨fun hcon => hs.1 ⟨hcon.1.symm, hcon.2.symm⟩,
               fun hcon => hs.2 ⟨hcon.2.symm, hcon.1.symm⟩⟩
      refine (List.Perm.pairwise_iff (fun h => hsymm h) hperm).mpr ?_
      have hnodup : (pairKeys (baskets t.rows)).Nodup := nodup_firstDedup _
      unfold rules_tmp
      refine pairwise_filterMap_of _ hnodup ?_
      intro p hp q hq hne r s hfr hfs
      obtain ⟨hr1, hr2⟩ := rules_tmp_fields hfr
      obtain ⟨hs1, hs2⟩ := rules_tmp_fields hfs
      have hps : sLt p.1 p.2 := pairKeys_sLt hp
      have hqs : sLt q.1 q.2 := pairKeys_sLt hq
      constructor
      · rintro ⟨he1, he2⟩
        exact hne (Prod.ext_iff.mpr
          ⟨hr1.symm.trans (he1.trans hs1), hr2.symm.trans (he2.trans hs2)⟩)
      · rintro ⟨he1, he2⟩
        have e1 : p.1 = q.2 := hr1.symm.trans (he1.trans hs2)
        have e2 : p.2 = q.1 := hr2.symm.trans (he2.trans hs1)
        rw [← e2, ← e1] at hqs
        have hfalse : strLt p.2 p.1 = false := strLt_asymm hps
        rw [sLt, hfalse] at hqs
        cases hqs
    · simp

/-- Witness for C10 at the example table's single rule. -/
theorem c10_canonical_direction_witness :
    sLt "a" "b" :=
  (c10_canonical_direction exPicking).1
    ⟨"a", "b", mkRat 1 4, mkRat 857 1000, mkRat 3429 1000, 6⟩ (by decide)

/-! ### Claim C4: drift flags -/

/-- **C4, counterexample**. Take a currently empty table (hash absent) and
a previous fingerprint whose hash exists: the script flags it "changed",
while the claim ("changed iff both hashes exist and differ; an empty table
yields not-changed") demands the flag be false. -/
theorem c4_counterexample :
    schema_changed (fingerprint ⟨0, [("A", "int64")]⟩) (some ⟨["A"], some "h"⟩) = true ∧
    ¬ ((fingerprint ⟨0, [("A", "int64")]⟩).hash ≠ none ∧
       (some "h" : Option String) ≠ none ∧
       (fingerprint ⟨0, [("A", "int64")]⟩).hash ≠ some "h") := by
  decide

/-- **C4, amended** (drift flag definition and degradation). A table is
flagged "changed" iff a previous fingerprint object is present and the
current hash differs from the previous hash, where an absent hash (empty
table) counts as the distinct value `none`; when no previous document is
available every flag is false; the detector is a total function, so no
error is raised. -/
theorem c4_drift_flags :
    (∀ (cur : Fingerprint) (prev : Option Fingerprint),
      schema_changed cur prev = true ↔ ∃ p, prev = some p ∧ cur.hash ≠ p.hash) ∧
    (∀ pk pr st su : SchemaView,
      schema_drift pk pr st su emptyPrev = ⟨false, false, false, false⟩) := by
  constructor
  · intro cur prev
    cases prev with
    | none => simp [schema_changed]
    | some p => simp [schema_changed]
  · intro pk pr st su
    rfl

/-! ### Claim C5: automation score and triggers -/

theorem mem_n8n_triggers (d : DriftFlags) (s : Nat) :
    ("schema_drift" ∈ n8n_triggers d s ↔ anyDrift d = true) ∧
    ("low_automation_value" ∈ n8n_triggers d s ↔ s < 50) := by
  unfold n8n_triggers
  by_cases h1 : anyDrift d <;> by_cases h2 : s < 50 <;>
    simp [h1, h2]

/-- **C5** (automation score and triggers). The score is the sum of +30 for
a nonempty rule list, +30 for a nonempty suggestion list, +20 for no drift,
and +20 for a reachable previous document; it always lies in `[0, 100]`;
the `schema_drift` trigger is emitted iff some table changed, and the
`low_automation_value` trigger iff the score is below 50. -/
theorem c5_automation_score (rules : List AssocRule) (suggestions : List Suggestion)
    (drift : DriftFlags) (reachable : Bool) :
    automation_score rules suggestions drift reachable =
      (if rules ≠ [] then 30 else 0) + (if suggestions ≠ [] then 30 else 0) +
      (if anyDrift drift then 0 else 20) + (if reachable then 20 else 0) ∧
    automation_score rules suggestions drift reachable ≤ 100 ∧
    ("schema_drift" ∈
        n8n_triggers drift (automation_score rules suggestions drift reachable)
      ↔ anyDrift drift = true) ∧
    ("low_automation_value" ∈
        n8n_triggers drift (automation_score rules suggestions drift reachable)
      ↔ automation_score rules suggestions drift reachable < 50) := by
  have hscore : automation_score rules suggestions drift reachable =
      (if rules ≠ [] then 30 else 0) + (if suggestions ≠ [] then 30 else 0) +
      (if anyDrift drift then 0 else 20) + (if reachable then 20 else 0) := by
    unfold automation_score
    by_cases h1 : rules ≠ [] <;> by_cases h2 : suggestions ≠ [] <;>
      by_cases h3 : anyDrift drift = true <;> cases reachable <;>
      simp [h1, h2, h3]
  refine ⟨hscore, ?_, (mem_n8n_triggers drift _).1, (mem_n8n_triggers drift _).2⟩
  rw [hscore]
  split_ifs <;> norm_num

/-! ### Claim C6: slotting aggregation -/

theorem pairwise_orderedInsert_of {α : Type} (r : α → α → Prop) [DecidableRel r]
    (S : α → α → Prop) (x : α) :
    ∀ l : List α, l.Pairwise S → (∀ b ∈ l, S x b) → (∀ b ∈ l, ¬ r x b → S b x) →
      (l.orderedInsert r x).Pairwise S
  | [], _, _, _ => by simp
  | y :: ys, h, h2, h3 => by
    unfold List.orderedInsert
    by_cases hxy : r x y
    · rw [if_pos hxy]
      exact List.pairwise_cons.mpr ⟨h2, h⟩
    · rw [if_neg hxy]
      rcases List.pairwise_cons.mp h with ⟨hy, hys⟩
      refine List.pairwise_cons.mpr ⟨?_, pairwise_orderedInsert_of r S x ys hys
        (fun b hb => h2 b (List.mem_cons_of_mem _ hb))
        (fun b hb hrb => h3 b (List.mem_cons_of_mem _ hb) hrb)⟩
      intro w hw
      rcases (List.mem_orderedInsert r).mp hw with rfl | hw
      · exact h3 y (List.mem_cons_self _ _) hxy
      · exact hy w hw

/-- A stable sort keeps any pairwise property `S` of the input that is also
implied between out-of-order elements (`¬ r a b → S b a`). -/
theorem pairwise_insertionSort_of {α : Type} (r : α → α → Prop) [DecidableRel r]
    (S : α → α → Prop) (hglob : ∀ a b, ¬ r a b → S b a) :
    ∀ l : List α, l.Pairwise S → (List.insertionSort r l).Pairwise S
  | [], _ => by simp
  | x :: xs, h => by
    rcases List.pairwise_cons.mp h with ⟨hx, hxs⟩
    show (List.orderedInsert r x (List.insertionSort r xs)).Pairwise S
    refine pairwise_orderedInsert_of r S x _
      (pairwise_insertionSort_of r S hglob xs hxs) ?_ ?_
    · intro b hb
      exact hx b ((List.mem_insertionSort r).mp hb)
    · intro b _ hrb
      exact hglob x b hrb

theorem zone_assignment_pairwise (rows : List (String × String)) :
    (zone_assignment rows).Pairwise (fun p q => sLt p.1 q.1) := by
  unfold zone_assignment
  rw [List.pairwise_map]
  exact pairwise_sortedDedup _

/-- **C6** (slotting aggregator contract). With both columns present and a
nonempty Product table, the result pairs each listed category with its row
count, is sorted by count descending with ties in ascending (original
grouping) category order, has at most 5 entries, and consists of top-5
categories: any category not listed implies the result is full with 5
entries of count at least as large. A missing column or empty table gives
`[]` and no error. -/
theorem c6_slotting (t : ProductTable) :
    (¬ (t.rows ≠ [] ∧ "Category" ∈ t.cols ∧ "SKU" ∈ t.cols) → slotting_result t = []) ∧
    (slotting_result t).length ≤ 5 ∧
    (∀ p ∈ slotting_result t, p.2 = countCat t.rows p.1 ∧ p.1 ∈ t.rows.map Prod.fst) ∧
    (slotting_result t).Pairwise slotLE ∧
    (slotting_result t).Pairwise (fun p q => p.2 = q.2 → sLt p.1 q.1) ∧
    ((t.rows ≠ [] ∧ "Category" ∈ t.cols ∧ "SKU" ∈ t.cols) →
      ∀ c ∈ t.rows.map Prod.fst,
        (∃ p ∈ slotting_result t, p.1 = c) ∨
        ((slotting_result t).length = 5 ∧
          ∀ p ∈ slotting_result t, countCat t.rows c ≤ p.2)) := by
  by_cases hcond : t.rows ≠ [] ∧ "Category" ∈ t.cols ∧ "SKU" ∈ t.cols
  case neg =>
    have hres : slotting_result t = [] := by
      unfold slotting_result
      rw [if_neg hcond]
    refine ⟨fun _ => hres, ?_, ?_, ?_, ?_, fun hc => absurd hc hcond⟩ <;>
      simp [hres]
  case pos =>
    have hres : slotting_result t =
        (List.insertionSort slotLE (zone_assignment t.rows)).take 5 := by
      unfold slotting_result
      rw [if_pos hcond]
    refine ⟨fun hn => absurd hcond hn, ?_, ?_, ?_, ?_, ?_⟩
    · rw [hres, List.length_take]
      exact min_le_left _ _
    · intro p hp
      rw [hres] at hp
      have hp1 : p ∈ List.insertionSort slotLE (zone_assignment t.rows) :=
        List.Sublist.mem hp (List.take_sublist _ _)
      have hp2 : p ∈ zone_assignment t.rows :=
        (List.mem_insertionSort slotLE).mp hp1
      rcases List.mem_map.mp hp2 with ⟨c, hc, rfl⟩
      exact ⟨rfl, (mem_sortedDedup c _).mp hc⟩
    · rw [hres]
      exact List.Pairwise.sublist (List.take_sublist _ _)
        (List.sorted_insertionSort slotLE _)
    · rw [hres]
      refine List.Pairwise.sublist (List.take_sublist _ _)
        (pairwise_insertionSort_of slotLE _ ?_ _ ?_)
      · intro a b hnr heq
        exact absurd (le_of_eq heq) hnr
      · refine List.Pairwise.imp ?_ (zone_assignment_pairwise t.rows)
        intro p q hab _
        exact hab
    · intro _ c hc
      have hc1 : c ∈ sortedDedup (t.rows.map Prod.fst) := (mem_sortedDedup c _).mpr hc
      have he : (c, countCat t.rows c) ∈ zone_assignment t.rows :=
        List.mem_map.mpr ⟨c, hc1, rfl⟩
      have heL : (c, countCat t.rows c) ∈
          List.insertionSort slotLE (zone_assignment t.rows) :=
        (List.mem_insertionSort slotLE).mpr he
      set L := List.insertionSort slotLE (zone_assignment t.rows) with hL
      rw [← List.take_append_drop 5 L] at heL
      rcases List.mem_append.mp heL with hin | hin
      · left
        exact ⟨_, hres ▸ hin, rfl⟩
      · right
        have hlen : 5 < L.length := by
          by_contra hle
          rw [List.drop_eq_nil_of_le (by omega)] at hin
          cases hin
        constructor
        · rw [hres, List.length_take]
          exact min_eq_left (le_of_lt hlen)
        · intro p hp
          have hsorted : L.Pairwise slotLE := List.sorted_insertionSort slotLE _
          rw [← List.take_append_drop 5 L, List.pairwise_append] at hsorted
          exact hsorted.2.2 p (hres ▸ hp) _ hin

/-- The example Product table: three rows, categories `x, y, x`. -/
def exProduct : ProductTable :=
  ⟨["Category", "SKU"], [("x", "s1"), ("y", "s2"), ("x", "s3")]⟩

/-- Witness for C6 at the example Product table. -/
theorem c6_slotting_witness :
    ((2 : Nat) = countCat exProduct.rows "x" ∧ "x" ∈ exProduct.rows.map Prod.fst) ∧
    slotting_result exProduct = [("x", 2), ("y", 1)] :=
  ⟨(c6_slotting exProduct).2.2.1 ("x", 2) (by decide), by decide⟩

/-! ### Claim C9: fingerprint determinism and order sensitivity -/

theorem sep_split {c : Char} : ∀ (a b : List Char) {as bs : List Char}, c ∉ a → c ∉ b →
    a ++ c :: as = b ++ c :: bs → a = b ∧ as = bs
  | [], [], _, _, _, _, h => ⟨rfl, (List.cons.inj h).2⟩
  | [], y :: b', _, _, _, hb, h => by
    have hcy : c = y := (List.cons.inj h).1
    exact absurd (hcy ▸ List.mem_cons_self y b') hb
  | x :: a', [], _, _, ha, _, h => by
    have hxc : x = c := (List.cons.inj h).1
    exact absurd (hxc ▸ List.mem_cons_self x a') ha
  | x :: a', y :: b', _, _, ha, hb, h => by
    obtain ⟨hxy, h'⟩ := List.cons.inj h
    have ha' : c ∉ a' := fun hm => ha (List.mem_cons_of_mem _ hm)
    have hb' : c ∉ b' := fun hm => hb (List.mem_cons_of_mem _ hm)
    obtain ⟨he, ht⟩ := sep_split a' b' ha' hb' h'
    exact ⟨by rw [hxy, he], ht⟩

/-- Column names free of the separators `:` and `|` (true of ordinary
column names; the md5 input does not escape them). -/
def goodCols (cols : List (String × String)) : Prop :=
  ∀ p ∈ cols, ':' ∉ p.1.data ∧ '|' ∉ p.1.data ∧ '|' ∉ p.2.data

instance (cols : List (String × String)) : Decidable (goodCols cols) := by
  unfold goodCols
  infer_instance

theorem bar_not_mem_partChars {p : String × String}
    (h : ':' ∉ p.1.data ∧ '|' ∉ p.1.data ∧ '|' ∉ p.2.data) : '|' ∉ partChars p := by
  intro hm
  rcases List.mem_append.mp hm with hm | hm
  · exact h.2.1 hm
  · rcases List.mem_cons.mp hm with he | hm
    · exact absurd he (by decide)
    · exact h.2.2 hm

theorem partChars_ne_nil (p : String × String) : partChars p ≠ [] := by
  intro h
  have := congrArg List.length h
  simp [partChars] at this

theorem partChars_inj {p q : String × String}
    (hp : ':' ∉ p.1.data) (hq : ':' ∉ q.1.data)
    (h : partChars p = partChars q) : p = q := by
  obtain ⟨h1, h2⟩ := sep_split _ _ hp hq h
  exact Prod.ext_iff.mpr ⟨String.ext h1, String.ext h2⟩

theorem comboChars_ne_nil (p : String × String) (rest : List (String × String)) :
    comboChars (p :: rest) ≠ [] := by
  cases rest with
  | nil => exact partChars_ne_nil p
  | cons q r =>
    intro h
    have := congrArg List.length h
    simp [comboChars, List.length_append] at this

theorem comboChars_inj : ∀ {l₁ l₂ : List (String × String)},
    goodCols l₁ → goodCols l₂ → comboChars l₁ = comboChars l₂ → l₁ = l₂
  | [], [], _, _, _ => rfl
  | [], p :: rest, _, _, h => absurd h.symm (comboChars_ne_nil p rest)
  | p :: rest, [], _, _, h => absurd h (comboChars_ne_nil p rest)
  | [p], [q], g1, g2, h => by
    have hp := g1 p (List.mem_cons_self _ _)
    have hq := g2 q (List.mem_cons_self _ _)
    rw [partChars_inj hp.1 hq.1 h]
  | [p], q :: q' :: r, g1, _, h => by
    exfalso
    have hp := g1 p (List.mem_cons_self _ _)
    apply bar_not_mem_partChars hp
    have h' : partChars p = partChars q ++ '|' :: comboChars (q' :: r) := h
    rw [h']
    exact List.mem_append.mpr (Or.inr (List.mem_cons_self _ _))
  | p :: p' :: r, [q], _, g2, h => by
    exfalso
    have hq := g2 q (List.mem_cons_self _ _)
    apply bar_not_mem_partChars hq
    have h' : partChars q = partChars p ++ '|' :: comboChars (p' :: r) := h.symm
    rw [h']
    exact List.mem_append.mpr (Or.inr (List.mem_cons_self _ _))
  | p :: p' :: r1, q :: q' :: r2, g1, g2, h => by
    have hp := g1 p (List.mem_cons_self _ _)
    have hq := g2 q (List.mem_cons_self _ _)
    have h' : partChars p ++ '|' :: comboChars (p' :: r1) =
        partChars q ++ '|' :: comboChars (q' :: r2) := h
    obtain ⟨h1, h2⟩ :=
      sep_split _ _ (bar_not_mem_partChars hp) (bar_not_mem_partChars hq) h'
    have hpq : p = q := partChars_inj hp.1 hq.1 h1
    have ht : p' :: r1 = q' :: r2 :=
      comboChars_inj (fun x hx => g1 x (List.mem_cons_of_mem _ hx))
        (fun x hx => g2 x (List.mem_cons_of_mem _ hx)) h2
    rw [hpq, ht]

/-- **C9, counterexample**. The fingerprint's `name:type|...` join does not
escape its separators: the two-column tables with columns
`a, "a:object|a"` (both of dtype `object`) in the two opposite orders — a
genuine reordering — produce the *same* hash, where the claim demands
different hashes. -/
theorem c9_counterexample :
    (fingerprint ⟨1, [("a", "object"), ("a:object|a", "object")]⟩).hash =
      (fingerprint ⟨1, [("a:object|a", "object"), ("a", "object")]⟩).hash ∧
    ([("a", "object"), ("a:object|a", "object")] : List (String × String)) ≠
      [("a:object|a", "object"), ("a", "object")] ∧
    List.Perm [("a", "object"), ("a:object|a", "object")]
      [("a:object|a", "object"), ("a", "object")] :=
  ⟨by decide, by decide, List.Perm.swap _ _ _⟩

/-- **C9, amended** (fingerprint determinism and order sensitivity). The
fingerprint is a pure function of the ordered `(name, dtype)` pairs: equal
column sequences of non-empty tables give equal fingerprints; and —
provided no column name contains `:` or `|` and no dtype contains `|`,
which holds for ordinary pandas columns — different column orders give
different hashes. -/
theorem c9_fingerprint (t1 t2 : SchemaView)
    (h1 : t1.rowCount ≠ 0) (h2 : t2.rowCount ≠ 0) (hc1 : t1.cols ≠ [])
    (hg1 : goodCols t1.cols) (hg2 : goodCols t2.cols) :
    (t1.cols = t2.cols → fingerprint t1 = fingerprint t2) ∧
    (t1.cols ≠ t2.cols → (fingerprint t1).hash ≠ (fingerprint t2).hash) := by
  have hf1 : fingerprint t1 =
      ⟨t1.cols.map Prod.fst, some (md5Hex ⟨comboChars t1.cols⟩)⟩ := by
    unfold fingerprint
    rw [if_neg (by push_neg; exact ⟨h1, hc1⟩)]
  constructor
  · intro he
    have hc2 : t2.cols ≠ [] := he ▸ hc1
    have hf2 : fingerprint t2 =
        ⟨t2.cols.map Prod.fst, some (md5Hex ⟨comboChars t2.cols⟩)⟩ := by
      unfold fingerprint
      rw [if_neg (by push_neg; exact ⟨h2, hc2⟩)]
    rw [hf1, hf2, he]
  · intro hne
    by_cases hc2 : t2.cols = []
    · have hf2 : fingerprint t2 = ⟨[], none⟩ := by
        unfold fingerprint
        rw [if_pos (Or.inr hc2)]
      rw [hf1, hf2]
      simp
    · have hf2 : fingerprint t2 =
          ⟨t2.cols.map Prod.fst, some (md5Hex ⟨comboChars t2.cols⟩)⟩ := by
        unfold fingerprint
        rw [if_neg (by push_neg; exact ⟨h2, hc2⟩)]
      rw [hf1, hf2]
      intro heq
      have hs : (⟨comboChars t1.cols⟩ : String) = ⟨comboChars t2.cols⟩ :=
        Option.some.inj heq
      have hdata : comboChars t1.cols = comboChars t2.cols := congrArg String.data hs
      exact hne (comboChars_inj hg1 hg2 hdata)

/-- Witness for C9: two ordinary columns in either order give different
hashes; identical tables give identical fingerprints. -/
theorem c9_fingerprint_witness :
    (fingerprint ⟨1, [("a", "int64"), ("b", "object")]⟩).hash ≠
      (fingerprint ⟨1, [("b", "object"), ("a", "int64")]⟩).hash :=
  (c9_fingerprint ⟨1, [("a", "int64"), ("b", "object")]⟩
      ⟨1, [("b", "object"), ("a", "int64")]⟩
      (by decide) (by decide) (by decide) (by decide) (by decide)).2 (by decide)

end WRoute
